import Mathlib

/-!
Verification of the clipgen audio excitement-detection pipeline.

Shallow embedding of the core pipeline of `backend/ml_core.py`,
`backend/ml_audio_analyzer.py`, `backend/enhanced_video_processor.py` and
`backend/performance_optimizer.py`.  Per-frame float sequences are embedded
as `List ℚ`, Python dicts as insertion-ordered association lists, and
exception-raising paths as `Option`.
-/

namespace ClipGen

/-! ## Configuration constants (system_detector.py, `ProcessingConfig`) -/

/-- Minimum clip length in seconds (`ProcessingConfig.min_clip_length`). -/
def minClipLength : ℚ := 20

/-- Maximum clip length in seconds (`ProcessingConfig.max_clip_length`). -/
def maxClipLength : ℚ := 180

/-- Context buffer in seconds (`ProcessingConfig.context_buffer`). -/
def contextBuffer : ℚ := 3

/-- Merge-gap threshold in seconds (`ProcessingConfig.merge_threshold`). -/
def mergeThreshold : ℚ := 30

/-- Category weight table (`ProcessingConfig.get_excitement_types`); the
`freq_range` entries are never read by the embedded code paths. -/
def excitementTypeWeights : List (String × ℚ) :=
  [("laughter", 12/10), ("shock", 11/10), ("hype", 1), ("speech", 8/10)]

/-! ## Generic helpers -/

/-- Python `dict[key]` access on an insertion-ordered association list:
first binding for the key, `none` when absent (a `KeyError` in Python). -/
def dictLookup {α : Type} (k : String) : List (String × α) → Option α
  | [] => none
  | (k', v) :: rest => if k' = k then some v else dictLookup k rest

/-- Elementwise sum of two numpy arrays (the embedded arrays always have
equal length where this is used). -/
def vecAdd (a b : List ℚ) : List ℚ := List.zipWith (· + ·) a b

/-- Scalar multiple of a numpy array. -/
def vecScale (c : ℚ) (a : List ℚ) : List ℚ := a.map (fun x => c * x)

/-- Arithmetic mean (`np.mean`); numpy yields NaN on an empty array, the
embedded value there is `0/0 = 0` and is never relied upon. -/
def meanL (l : List ℚ) : ℚ := l.sum / l.length

/-- Minimum of a numpy array (`np.min`), `0` for the empty array. -/
def minL : List ℚ → ℚ
  | [] => 0
  | x :: xs => xs.foldl min x

/-- Maximum of a numpy array (`np.max`), `0` for the empty array. -/
def maxL : List ℚ → ℚ
  | [] => 0
  | x :: xs => xs.foldl max x

/-- Sum of squared deviations from the mean; it is zero exactly when
`np.std(data) == 0` holds in exact arithmetic, and only this zero test of
the standard deviation is read by the source. -/
def sqDev (l : List ℚ) : ℚ := (l.map (fun x => (x - meanL l) ^ 2)).sum

/-! ## ml_core.py: `validate_audio_input` -/

/-- Embedding of `validate_audio_input(audio_data, sample_rate)`; the audio
signal enters only through its length `n`, the sample rate is `sr`.  The
duration test in seconds is `n / sr < 10`; the 4-hour test only logs. -/
def validateAudioInput (n : ℕ) (sr : ℤ) : Bool :=
  if n = 0 then false
  else if sr ≤ 0 then false
  else if (n : ℚ) / (sr : ℚ) < 10 then false
  else true

/-! ## ml_core.py: `ExcitementDetector._normalize` and `analyze_excitement` -/

/-- Embedding of `ExcitementDetector._normalize`: all-zero output when the
standard deviation is zero, else `(x - min) / (max - min)` elementwise.
The empty array takes the zero branch, as the Python `except` handler does. -/
def normalizeMinMax (l : List ℚ) : List ℚ :=
  if sqDev l = 0 then List.replicate l.length 0
  else l.map (fun x => (x - minL l) / (maxL l - minL l))

/-- Feature set handed to `ExcitementDetector.analyze_excitement`; only the
fields that the excitement formulas read are represented. -/
structure FeatureSet where
  spectralCentroid : List ℚ
  spectralRolloff : List ℚ
  spectralBandwidth : List ℚ
  zeroCrossingRate : List ℚ
  mfccs : List (List ℚ)
  rms : List ℚ
  onsetStrength : List ℚ

/-- Pointwise mean over a list of rows (`np.mean(arr, axis=0)` on a stack of
equal-length rows). -/
def rowMean (rows : List (List ℚ)) : List ℚ :=
  match rows with
  | [] => []
  | r :: rs => vecScale (1 / (rs.length + 1 : ℚ)) (rs.foldl vecAdd r)

/-- Per-category score sequences produced by `analyze_excitement`. -/
structure ExcitementScores where
  laughter : List ℚ
  shock : List ℚ
  hype : List ℚ
  speech : List ℚ

/-- Embedding of `ExcitementDetector.analyze_excitement`: each category is a
fixed linear combination of min-max-normalized feature sequences. -/
def analyzeExcitement (f : FeatureSet) : ExcitementScores where
  laughter :=
    vecAdd (vecScale (4/10) (normalizeMinMax f.spectralCentroid))
      (vecAdd (vecScale (3/10) (normalizeMinMax f.zeroCrossingRate))
        (vecScale (3/10) (normalizeMinMax f.spectralBandwidth)))
  shock :=
    vecAdd (vecScale (5/10) (normalizeMinMax f.onsetStrength))
      (vecAdd (vecScale (3/10) (normalizeMinMax f.spectralRolloff))
        (vecScale (2/10) (normalizeMinMax f.rms)))
  hype :=
    vecAdd (vecScale (6/10) (normalizeMinMax f.rms))
      (vecAdd (vecScale (2/10) (normalizeMinMax f.onsetStrength))
        (vecScale (2/10) (normalizeMinMax (rowMean (f.mfccs.take 3)))))
  speech := normalizeMinMax (rowMean ((f.mfccs.drop 1).take 4))

/-- Keyed shape of `analyze_excitement`'s result as downstream code sees it
(a Python dict built in insertion order laughter, shock, hype, speech). -/
def scoresToDict (es : ExcitementScores) : List (String × List ℚ) :=
  [("laughter", es.laughter), ("shock", es.shock),
   ("hype", es.hype), ("speech", es.speech)]

/-! ## ml_audio_analyzer.py: segments, length adjustment, merging -/

/-- Time-based candidate segment `(start_time, end_time, excitement_type)`. -/
structure Segment where
  startTime : ℚ
  endTime : ℚ
  excType : String
deriving DecidableEq, Repr

/-- Start-time order used by the merge pass's sort key. -/
abbrev startLE (a b : Segment) : Prop := a.startTime ≤ b.startTime

/-- Two consecutive segments separated by more than the merge threshold. -/
abbrev bigGap (a b : Segment) : Prop := mergeThreshold < b.startTime - a.endTime

/-- Embedding of `MLAudioAnalyzer._adjust_clip_length`: extend a too-short
clip symmetrically around its center, trim a too-long clip symmetrically
around the peak, both clamped to `[0, maxT]`. -/
def adjustClipLength (s e peak maxT : ℚ) : ℚ × ℚ :=
  let d := e - s
  if d < minClipLength then
    let c := (s + e) / 2
    (max 0 (c - minClipLength / 2), min maxT (c + minClipLength / 2))
  else if d > maxClipLength then
    (max 0 (peak - maxClipLength / 2), min maxT (peak + maxClipLength / 2))
  else (s, e)

instance : DecidableRel startLE :=
  fun a b => inferInstanceAs (Decidable (a.startTime ≤ b.startTime))

instance : IsTotal Segment startLE := ⟨fun a b => le_total a.startTime b.startTime⟩

instance : IsTrans Segment startLE := ⟨fun _ _ _ => le_trans⟩

/-- Stable sort by start time (`sorted(segments, key=lambda x: x[0])`);
insertion sort places each earlier element before later equal keys, so it
agrees with Python's stable sort. -/
def sortByStart (l : List Segment) : List Segment := List.insertionSort startLE l

/-- Scan of `_merge_segments`: `last` is the final element of the merged
accumulator, the list argument the remaining sorted input.  A gap of at
most `merge_threshold` folds the next segment into `last`, fusing labels
with `+` when they differ. -/
def mergeCore (last : Segment) : List Segment → List Segment
  | [] => [last]
  | c :: rest =>
    if c.startTime - last.endTime ≤ mergeThreshold then
      mergeCore
        ⟨last.startTime, c.endTime,
          if last.excType = c.excType then last.excType
          else last.excType ++ "+" ++ c.excType⟩ rest
    else last :: mergeCore c rest

/-- Embedding of `MLAudioAnalyzer._merge_segments`. -/
def mergeSegments (segs : List Segment) : List Segment :=
  match sortByStart segs with
  | [] => []
  | h :: t => mergeCore h t

/-- Candidate produced by `_peaks_to_segments` right before the length
adjustment: buffered boundary times plus the originating peak time. -/
structure RawSegment where
  startTime : ℚ
  endTime : ℚ
  peakTime : ℚ
  excType : String
deriving DecidableEq, Repr

/-- Validity of a raw candidate on a signal of duration `maxT`: boundary
times clamped into `[0, maxT]` by `_peaks_to_segments` and a peak time
inside the signal. -/
def validRaw (r : RawSegment) (maxT : ℚ) : Prop :=
  0 ≤ r.startTime ∧ r.startTime < r.endTime ∧ r.endTime ≤ maxT ∧
    0 ≤ r.peakTime ∧ r.peakTime ≤ maxT

instance (r : RawSegment) (maxT : ℚ) : Decidable (validRaw r maxT) := by
  unfold validRaw; infer_instance

/-- Length adjustment applied to every candidate followed by the merge
pass, the final two steps of `_detect_segments`'s segment construction. -/
def adjustThenMerge (raws : List RawSegment) (maxT : ℚ) : List Segment :=
  mergeSegments (raws.map (fun r =>
    let p := adjustClipLength r.startTime r.endTime r.peakTime maxT
    ⟨p.1, p.2, r.excType⟩))

/-! ## ml_audio_analyzer.py: `_find_boundaries` -/

/-- Array read `a[i]` on an embedded numpy array (all uses are in range). -/
def getQ (l : List ℚ) (i : ℕ) : ℚ := l.getD i 0

/-- Stopping test of the boundary walk: composite below 30% of the peak
value and speech below 50% of the mean speech score. -/
def boundaryCond (composite speech : List ℚ) (peak i : ℕ) : Bool :=
  decide (getQ composite i < getQ composite peak * (3/10)) &&
    decide (getQ speech i < meanL speech * (5/10))

/-- Indices visited by the backward walk `range(peak, max(0, peak-100), -1)`:
`peak, peak-1, …, max(0, peak-100)+1`. -/
def backwardWindow (peak : ℕ) : List ℕ :=
  (List.range (min peak 100)).map (fun k => peak - k)

/-- Indices visited by the forward walk `range(peak, min(n, peak+100))`. -/
def forwardWindow (peak n : ℕ) : List ℕ :=
  (List.range (min n (peak + 100) - peak)).map (fun k => peak + k)

/-- Start boundary: first qualifying frame of the backward walk, the peak
itself when the walk finds none. -/
def findStartIdx (composite speech : List ℚ) (peak : ℕ) : ℕ :=
  ((backwardWindow peak).find? (boundaryCond composite speech peak)).getD peak

/-- End boundary: first qualifying frame of the forward walk, the peak
itself when the walk finds none. -/
def findEndIdx (composite speech : List ℚ) (peak : ℕ) : ℕ :=
  ((forwardWindow peak composite.length).find?
    (boundaryCond composite speech peak)).getD peak

/-- Embedding of `MLAudioAnalyzer._find_boundaries`. -/
def findBoundaries (peak : ℕ) (composite speech : List ℚ) : ℕ × ℕ :=
  (findStartIdx composite speech peak, findEndIdx composite speech peak)

/-! ## ml_audio_analyzer.py: `_create_composite_score` and `_detect_segments` -/

/-- Embedding of `MLAudioAnalyzer._create_composite_score`: starts from
`np.zeros_like(excitement_scores['rms'])` — `none` (a `KeyError`) when the
mapping has no `'rms'` key — then adds each weighted category sequence. -/
def createCompositeScore (scores : List (String × List ℚ)) : Option (List ℚ) :=
  match dictLookup "rms" scores with
  | none => none
  | some r => some (scores.foldl
      (fun acc kv =>
        match dictLookup kv.1 excitementTypeWeights with
        | some w => vecAdd acc (vecScale w kv.2)
        | none => acc)
      (List.replicate r.length 0))

/-- Embedding of `MLAudioAnalyzer._detect_segments` around its
composite-score step.  The stages following the composite score (baseline,
peak finding, `_peaks_to_segments`, merge) are abstracted as `rest`; they
run only when the composite-score step succeeds, and any error inside the
`try` block degrades to the empty segment list. -/
def detectSegments (scores : List (String × List ℚ))
    (rest : List ℚ → List Segment) : List Segment :=
  match createCompositeScore scores with
  | none => []
  | some c => rest c

/-! ## ml_audio_analyzer.py: `_calculate_social_score` -/

/-- One `if key in breakdown: base += breakdown[key] * w` step. -/
def addIfPresent (breakdown : List (String × ℚ)) (k : String) (w base : ℚ) : ℚ :=
  match dictLookup k breakdown with
  | some v => base + v * w
  | none => base

/-- Membership test `'+' in exc_type` on the label's character sequence. -/
def hasMergedLabel (ty : String) : Bool := ty.data.contains '+'

/-- Embedding of `MLAudioAnalyzer._calculate_social_score`: weighted sum of
the present category means, a 1.2× bonus when the label contains `+`, then
the clamp `min(1.0, max(0.0, ·))`. -/
def calcSocialScore (breakdown : List (String × ℚ)) (excType : String) : ℚ :=
  let b0 := addIfPresent breakdown "laughter" (4/10) 0
  let b1 := addIfPresent breakdown "shock" (3/10) b0
  let b2 := addIfPresent breakdown "hype" (2/10) b1
  let b3 := addIfPresent breakdown "speech" (1/10) b2
  let b4 := if hasMergedLabel excType then b3 * (12/10) else b3
  min 1 (max 0 b4)

/-- Score formula claimed by the spec sentence: clamp first, then the 1.2×
bonus for merged labels (stated for comparison with `calcSocialScore`). -/
def claimedSocialScore (l s h sp : ℚ) (merged : Bool) : ℚ :=
  (min 1 (max 0 (4/10 * l + 3/10 * s + 2/10 * h + 1/10 * sp))) *
    (if merged then 12/10 else 1)

/-! ## ml_core.py: `BaselineCalculator.calculate_rolling_baseline` -/

/-- Value at output index `i` of `np.convolve(values, np.ones(w)/w, 'same')`
for `w ≤ len(values)`: the mean kernel summed over the in-range slice of the
full convolution at offset `(w-1)/2`. -/
def convSame (values : List ℚ) (w i : ℕ) : ℚ :=
  let k := i + (w - 1) / 2
  let lo := (k + 1) - w
  let hi := min (values.length - 1) k
  ((values.drop lo).take (hi + 1 - lo)).sum / w

/-- Embedding of `calculate_rolling_baseline`, parametrized directly by the
window size in frames.  A window at least the signal length collapses to
the global mean; `w = 0` makes `np.convolve` raise and the handler returns
the flat global-mean baseline; otherwise the centered moving average with
the first/last half-window regions overwritten by the edge value (for
`w//2 = 0`, Python's `baseline[-0:] = baseline[-0]` floods the whole array
with the first value). -/
def rollingBaseline (values : List ℚ) (w : ℕ) : List ℚ :=
  let M := values.length
  if M ≤ w then List.replicate M (meanL values)
  else if w = 0 then List.replicate M (meanL values)
  else
    let half := w / 2
    (List.range M).map (fun i =>
      if half = 0 then convSame values w 0
      else if i < half then convSame values w half
      else if M - half ≤ i then convSame values w (M - half)
      else convSame values w i)

/-! ## enhanced_video_processor.py: `_select_best_segments` -/

/-- Ranked segment record as consumed by the selector; only the fields the
selector reads are represented, in rank order within a list. -/
structure RankedSegment where
  startTime : ℚ
  endTime : ℚ
  duration : ℚ
  excType : String
  totalScore : ℚ
  social : ℚ
deriving DecidableEq, Repr

/-- Quality bar of the preferred pool:
`social_media_potential > 0.3 and duration >= 20`. -/
def qualityBar (s : RankedSegment) : Bool :=
  decide (3/10 < s.social) && decide (20 ≤ s.duration)

/-- Processing ceiling `EnhancedVideoProcessor.max_segments_to_process`. -/
def maxSegmentsToProcess : ℕ := 50

/-- Embedding of `EnhancedVideoProcessor._select_best_segments`. -/
def selectBestSegments (segments : List RankedSegment) (maxClips : Option ℕ) :
    List RankedSegment :=
  match segments with
  | [] => []
  | _ =>
    let quality := segments.filter qualityBar
    let pool :=
      if quality = [] then segments.take (min segments.length 10) else quality
    match maxClips with
    | some k => pool.take k
    | none => pool.take maxSegmentsToProcess

/-! ## performance_optimizer.py: `PerformanceCache`

The cache state is the in-memory `cache`/`access_times` pair (entries in
dict insertion order, carrying the stored value and the last-access time)
plus the on-disk pickle files (key, value, file mtime).  Time is an
abstract instant counter in TTL units (hours). -/

/-- One cache binding: key, stored value, timestamp. -/
structure CacheEntry where
  key : String
  val : ℕ
  time : ℕ
deriving DecidableEq, Repr

/-- Memory and disk contents of a `PerformanceCache`. -/
structure CacheState where
  mem : List CacheEntry
  disk : List CacheEntry
deriving DecidableEq, Repr

/-- Embedding of `_is_expired`:
`datetime.now() - timestamp > timedelta(hours=self.ttl_hours)`. -/
def isExpired (ttl now t : ℕ) : Bool := decide (ttl < now - t)

/-- Keys held in memory. -/
def memKeys (st : CacheState) : List String := st.mem.map (·.key)

/-- Keys having a disk file. -/
def diskKeys (st : CacheState) : List String := st.disk.map (·.key)

/-- Embedding of `_cleanup_expired`: drop every expired in-memory entry and
delete each dropped entry's disk file. -/
def cleanupExpired (ttl now : ℕ) (st : CacheState) : CacheState :=
  let expiredKeys :=
    (st.mem.filter (fun e => isExpired ttl now e.time)).map (·.key)
  { mem := st.mem.filter (fun e => !isExpired ttl now e.time),
    disk := st.disk.filter (fun e => !expiredKeys.contains e.key) }

/-- First key attaining the minimal access time, as Python's
`min(access_times.keys(), key=...)` produces; `none` on an empty dict
(where `min` raises `ValueError`). -/
def lruKey? (mem : List CacheEntry) : Option String :=
  match mem with
  | [] => none
  | e :: rest =>
    some ((rest.foldl (fun b c => if c.time < b.time then c else b) e).key)

/-- Embedding of `_evict_lru`: when the store holds at least `maxSize`
entries, remove the least-recently-accessed entry from memory and disk;
`none` models the `ValueError` of `min` on an empty store. -/
def evictLru (maxSize : ℕ) (st : CacheState) : Option CacheState :=
  if maxSize ≤ st.mem.length then
    match lruKey? st.mem with
    | none => none
    | some k =>
      some { mem := st.mem.filter (fun e => e.key != k),
             disk := st.disk.filter (fun e => e.key != k) }
  else some st

/-- Embedding of `PerformanceCache.get`: expiry sweep, then an in-memory
hit refreshing the access time in place, then the disk fallback (loading a
fresh file into memory, deleting a stale one). -/
def cacheGet (ttl : ℕ) (key : String) (now : ℕ) (st : CacheState) :
    Option ℕ × CacheState :=
  let st1 := cleanupExpired ttl now st
  match st1.mem.find? (fun e => e.key == key) with
  | some e =>
    (some e.val,
      { st1 with
        mem := st1.mem.map (fun e' =>
          if e'.key == key then { e' with time := now } else e') })
  | none =>
    match st1.disk.find? (fun e => e.key == key) with
    | some d =>
      if isExpired ttl now d.time then
        (none, { st1 with disk := st1.disk.filter (fun e => e.key != key) })
      else
        (some d.val,
          { st1 with mem := st1.mem ++ [⟨key, d.val, now⟩] })
    | none => (none, st1)

/-- Python dict/file assignment `d[key] = value` on an insertion-ordered
entry list: an existing binding is updated in place, a new one appended. -/
def dictSet (l : List CacheEntry) (fresh : CacheEntry) : List CacheEntry :=
  if l.any (fun e => e.key == fresh.key) then
    l.map (fun e => if e.key == fresh.key then fresh else e)
  else l ++ [fresh]

/-- Embedding of `PerformanceCache.set`: eviction check first, then the
in-memory write (updating in place or appending), then the disk write when
`persist` is set; `none` models the eviction's `ValueError` propagating
before any mutation. -/
def cacheSet (maxSize : ℕ) (key : String) (v now : ℕ) (persist : Bool)
    (st : CacheState) : Option CacheState :=
  match evictLru maxSize st with
  | none => none
  | some st1 =>
    some { mem := dictSet st1.mem ⟨key, v, now⟩,
           disk := if persist then dictSet st1.disk ⟨key, v, now⟩
                   else st1.disk }

/-- One observable cache operation with its wall-clock instant. -/
inductive CacheOp where
  | get (key : String) (now : ℕ)
  | set (key : String) (v now : ℕ) (persist : Bool)
deriving DecidableEq, Repr

/-- State after one operation; a raising `set` leaves the state unchanged
(the exception fires before any mutation). -/
def runOp (maxSize ttl : ℕ) (st : CacheState) : CacheOp → CacheState
  | .get k now => (cacheGet ttl k now st).2
  | .set k v now p => (cacheSet maxSize k v now p st).getD st

/-- State after a sequence of operations from the freshly-constructed
(empty) cache. -/
def runOps (maxSize ttl : ℕ) (ops : List CacheOp) : CacheState :=
  ops.foldl (runOp maxSize ttl) ⟨[], []⟩

/-! ## General lemmas -/

/-- Missing keys make the dict access raise: `dictLookup` is `none` exactly
off the key list. -/
theorem dictLookup_eq_none {α : Type} (k : String) (l : List (String × α))
    (h : k ∉ l.map Prod.fst) : dictLookup k l = none := by
  induction l with
  | nil => rfl
  | cons p rest ih =>
    simp only [List.map_cons, List.mem_cons, not_or] at h
    simp only [dictLookup]
    rw [if_neg (fun hp => h.1 hp.symm)]
    exact ih h.2

/-! ## C9: audio input validation -/

/-- C9: `validate_audio_input` rejects exactly the empty signal, the
non-positive sample rate, and the sub-10-second duration; a duration above
4 hours (14400 s) is still accepted, the long-duration branch only logs an
advisory warning. -/
theorem validateAudioInput_rejects_iff (n : ℕ) (sr : ℤ) :
    (validateAudioInput n sr = false ↔
      n = 0 ∨ sr ≤ 0 ∨ (n : ℚ) / (sr : ℚ) < 10) ∧
    (14400 < (n : ℚ) / (sr : ℚ) → validateAudioInput n sr = true) := by
  constructor
  · unfold validateAudioInput
    split_ifs with h1 h2 h3 <;> simp_all
  · intro hdur
    have hn : n ≠ 0 := by
      intro h0
      rw [h0] at hdur
      norm_num at hdur
    have hsr : ¬ sr ≤ 0 := by
      intro hle
      have hq : (sr : ℚ) ≤ 0 := by exact_mod_cast hle
      have : (n : ℚ) / (sr : ℚ) ≤ 0 :=
        div_nonpos_iff.mpr (Or.inl ⟨by positivity, hq⟩)
      linarith
    have h10 : ¬ (n : ℚ) / (sr : ℚ) < 10 := by linarith
    unfold validateAudioInput
    rw [if_neg hn, if_neg hsr, if_neg h10]

/-- Witness for C9 at a 12-hour signal: 953 million samples at 22050 Hz is
longer than 4 hours and is accepted. -/
theorem validateAudioInput_rejects_iff_witness :
    validateAudioInput 953000000 22050 = true :=
  (validateAudioInput_rejects_iff 953000000 22050).2 (by norm_num)

/-! ## C1: the composite-score `KeyError` degradation -/

/-- C1: on a score mapping whose keys are exactly the four excitement
categories — the shape `analyze_excitement` produces — the composite-score
step's read of the absent `'rms'` key fails, and `_detect_segments`
degrades to the empty segment list whatever the downstream stages would
have computed. -/
theorem detectSegments_empty_on_category_keys
    (scores : List (String × List ℚ))
    (h : scores.map Prod.fst = ["laughter", "shock", "hype", "speech"])
    (rest : List ℚ → List Segment) :
    detectSegments scores rest = [] := by
  have hnone : dictLookup "rms" scores = none := by
    apply dictLookup_eq_none
    rw [h]
    decide
  unfold detectSegments createCompositeScore
  rw [hnone]

/-- Witness for C1: a concrete four-category mapping with a downstream
stage that would return a nonempty list is still mapped to `[]`. -/
theorem detectSegments_empty_on_category_keys_witness :
    detectSegments
      [("laughter", [1]), ("shock", [1]), ("hype", [1]), ("speech", [1])]
      (fun c => [⟨0, c.headD 0 + 30, "general"⟩]) = [] :=
  detectSegments_empty_on_category_keys _ (by rfl) _

/-! ## C3: boundary-walk default -/

/-- Reads inside a constant array give the constant. -/
theorem getQ_replicate {n i : ℕ} (c : ℚ) (h : i < n) :
    getQ (List.replicate n c) i = c := by
  unfold getQ
  rw [List.getD_eq_getElem?_getD, List.getElem?_replicate, if_pos h]
  rfl

/-- Mean of a constant array is the constant. -/
theorem meanL_replicate {n : ℕ} (c : ℚ) (h : n ≠ 0) :
    meanL (List.replicate n c) = c := by
  unfold meanL
  rw [List.sum_replicate, List.length_replicate, nsmul_eq_mul]
  exact mul_div_cancel_left₀ c (by exact_mod_cast h)

/-- Backward-walk indices never exceed the peak. -/
theorem mem_backwardWindow_le {peak i : ℕ} (h : i ∈ backwardWindow peak) :
    i ≤ peak := by
  unfold backwardWindow at h
  simp only [List.mem_map, List.mem_range] at h
  obtain ⟨k, _, rfl⟩ := h
  omega

/-- Forward-walk indices stay inside the array. -/
theorem mem_forwardWindow_lt {peak n i : ℕ} (h : i ∈ forwardWindow peak n) :
    i < n := by
  unfold forwardWindow at h
  simp only [List.mem_map, List.mem_range] at h
  obtain ⟨k, hk, rfl⟩ := h
  omega

/-- On an all-ones composite and speech signal the walk's stopping test
fails everywhere: `1 < 1 * 0.3` and `1 < 1 * 0.5` are both false. -/
theorem boundaryCond_ones {n peak i : ℕ} (hi : i < n) (hp : peak < n) :
    boundaryCond (List.replicate n 1) (List.replicate n 1) peak i = false := by
  have hn : n ≠ 0 := by omega
  unfold boundaryCond
  rw [getQ_replicate 1 hi, getQ_replicate 1 hp, meanL_replicate 1 hn]
  have h1 : ¬ ((1 : ℚ) < 1 * (3/10)) := by norm_num
  have h2 : ¬ ((1 : ℚ) < 1 * (5/10)) := by norm_num
  simp [h1, h2]
  intro h
  norm_num at h

/-- Counterexample to C3: on constant composite and speech scores no frame
qualifies in either walk around peak 5 of a 10-frame signal, and
`_find_boundaries` returns the peak index itself, `(5, 5)`, not the
claimed clamped window edges (`max 0 (5 - 100) = 0` backward, index `9` or
frame count `10` forward). -/
theorem findBoundaries_counterexample :
    (∀ i ∈ backwardWindow 5,
      boundaryCond (List.replicate 10 1) (List.replicate 10 1) 5 i = false) ∧
    (∀ i ∈ forwardWindow 5 (List.replicate 10 (1 : ℚ)).length,
      boundaryCond (List.replicate 10 1) (List.replicate 10 1) 5 i = false) ∧
    findBoundaries 5 (List.replicate 10 1) (List.replicate 10 1) = (5, 5) ∧
    (5, 5) ≠ ((max 0 (5 - 100) : ℕ), 9) ∧ (5, 5) ≠ ((max 0 (5 - 100) : ℕ), 10) := by
  have hb : ∀ i ∈ backwardWindow 5,
      boundaryCond (List.replicate 10 1) (List.replicate 10 1) 5 i = false :=
    fun i hi => boundaryCond_ones
      (lt_of_le_of_lt (mem_backwardWindow_le hi) (by norm_num)) (by norm_num)
  have hf : ∀ i ∈ forwardWindow 5 (List.replicate 10 (1 : ℚ)).length,
      boundaryCond (List.replicate 10 1) (List.replicate 10 1) 5 i = false :=
    fun i hi => boundaryCond_ones
      (by simpa using mem_forwardWindow_lt hi) (by norm_num)
  refine ⟨hb, hf, ?_, by decide, by decide⟩
  unfold findBoundaries findStartIdx findEndIdx
  rw [List.find?_eq_none.mpr (fun i hi => by simp only [hb i hi]; exact Bool.false_ne_true),
    List.find?_eq_none.mpr (fun i hi => by simp only [hf i hi]; exact Bool.false_ne_true)]
  rfl

/-- C3 amended: when no frame within the search window qualifies, each
boundary stays at the peak index itself (the loop variable never
overwrites the initializer), not at the window edge. -/
theorem findBoundaries_default_peak (peak : ℕ) (composite speech : List ℚ)
    (hb : ∀ i ∈ backwardWindow peak,
      boundaryCond composite speech peak i = false)
    (hf : ∀ i ∈ forwardWindow peak composite.length,
      boundaryCond composite speech peak i = false) :
    findBoundaries peak composite speech = (peak, peak) := by
  unfold findBoundaries findStartIdx findEndIdx
  rw [List.find?_eq_none.mpr (fun i hi => by simp only [hb i hi]; exact Bool.false_ne_true),
    List.find?_eq_none.mpr (fun i hi => by simp only [hf i hi]; exact Bool.false_ne_true)]
  rfl

/-- Witness for the amended C3 on a constant-score instance. -/
theorem findBoundaries_default_peak_witness :
    findBoundaries 7 (List.replicate 12 1) (List.replicate 12 1) = (7, 7) :=
  findBoundaries_default_peak 7 _ _
    (fun i hi => boundaryCond_ones
      (lt_of_le_of_lt (mem_backwardWindow_le hi) (by norm_num)) (by norm_num))
    (fun i hi => boundaryCond_ones
      (by simpa using mem_forwardWindow_lt hi) (by norm_num))

/-! ## C4: social-media score -/

/-- Counterexample to C4: with all four per-category means equal to 1 and a
merged label, the code clamps after the 1.2× bonus and reports 1, while
the claimed formula (bonus applied to the clamped sum) reports 1.2. -/
theorem calcSocialScore_counterexample :
    calcSocialScore
      [("laughter", 1), ("shock", 1), ("hype", 1), ("speech", 1)]
      "laughter+shock" = 1 ∧
    claimedSocialScore 1 1 1 1 true = 12/10 ∧
    calcSocialScore
      [("laughter", 1), ("shock", 1), ("hype", 1), ("speech", 1)]
      "laughter+shock" ≠ claimedSocialScore 1 1 1 1 true := by
  have hm : hasMergedLabel "laughter+shock" = true := by decide
  have h1 : calcSocialScore
      [("laughter", 1), ("shock", 1), ("hype", 1), ("speech", 1)]
      "laughter+shock" = 1 := by
    norm_num [calcSocialScore, addIfPresent, dictLookup, hm, min_def, max_def]
  have h2 : claimedSocialScore 1 1 1 1 true = 12/10 := by
    norm_num [claimedSocialScore, min_def, max_def]
  refine ⟨h1, h2, ?_⟩
  rw [h1, h2]
  norm_num

/-- C4 amended: `social_media_potential` equals the clamp
`min(1, max(0, ·))` applied to the weighted category sum already
multiplied by the 1.2 merged-label bonus — the bonus is applied before the
clamp, never after it. -/
theorem calcSocialScore_eq_clamped (l s h sp : ℚ) (ty : String) :
    calcSocialScore
      [("laughter", l), ("shock", s), ("hype", h), ("speech", sp)] ty =
      min 1 (max 0 ((4/10 * l + 3/10 * s + 2/10 * h + 1/10 * sp) *
        (if hasMergedLabel ty then 12/10 else 1))) := by
  cases hmt : hasMergedLabel ty <;>
    · simp [calcSocialScore, addIfPresent, dictLookup, hmt]
      congr 2
      ring

/-! ## C6: min-max normalization -/

/-- Folding `min` never exceeds the initial value. -/
theorem foldl_min_le_init (as : List ℚ) (a : ℚ) : as.foldl min a ≤ a := by
  induction as generalizing a with
  | nil => simp
  | cons b bs ih =>
    simp only [List.foldl_cons]
    exact le_trans (ih (min a b)) (min_le_left a b)

/-- Folding `min` bounds every traversed element from below. -/
theorem foldl_min_le_mem (as : List ℚ) (a x : ℚ) (hx : x ∈ as) :
    as.foldl min a ≤ x := by
  induction as generalizing a with
  | nil => cases hx
  | cons b bs ih =>
    simp only [List.foldl_cons]
    rcases List.mem_cons.mp hx with rfl | hxs
    · exact le_trans (foldl_min_le_init bs (min a x)) (min_le_right a x)
    · exact ih (min a b) hxs

/-- The array minimum bounds every element from below. -/
theorem minL_le {l : List ℚ} {x : ℚ} (hx : x ∈ l) : minL l ≤ x := by
  cases l with
  | nil => cases hx
  | cons a as =>
    rcases List.mem_cons.mp hx with rfl | h
    · exact foldl_min_le_init as x
    · exact foldl_min_le_mem as a x h

/-- Folding `max` never drops below the initial value. -/
theorem init_le_foldl_max (as : List ℚ) (a : ℚ) : a ≤ as.foldl max a := by
  induction as generalizing a with
  | nil => simp
  | cons b bs ih =>
    simp only [List.foldl_cons]
    exact le_trans (le_max_left a b) (ih (max a b))

/-- Folding `max` bounds every traversed element from above. -/
theorem mem_le_foldl_max (as : List ℚ) (a x : ℚ) (hx : x ∈ as) :
    x ≤ as.foldl max a := by
  induction as generalizing a with
  | nil => cases hx
  | cons b bs ih =>
    simp only [List.foldl_cons]
    rcases List.mem_cons.mp hx with rfl | hxs
    · exact le_trans (le_max_right a x) (init_le_foldl_max bs (max a x))
    · exact ih (max a b) hxs

/-- The array maximum bounds every element from above. -/
theorem le_maxL {l : List ℚ} {x : ℚ} (hx : x ∈ l) : x ≤ maxL l := by
  cases l with
  | nil => cases hx
  | cons a as =>
    rcases List.mem_cons.mp hx with rfl | h
    · exact init_le_foldl_max as x
    · exact mem_le_foldl_max as a x h

/-- Mean of a nonempty constant array. -/
theorem meanL_of_const {l : List ℚ} {c : ℚ} (hne : l ≠ [])
    (h : ∀ x ∈ l, x = c) : meanL l = c := by
  have hsum : l.sum = l.length • c := List.sum_eq_card_nsmul l c h
  unfold meanL
  rw [hsum, nsmul_eq_mul]
  have hlen : (l.length : ℚ) ≠ 0 :=
    Nat.cast_ne_zero.mpr (List.length_pos.mpr hne).ne'
  exact mul_div_cancel_left₀ c hlen

/-- A constant array has zero squared deviation from the mean. -/
theorem sqDev_of_const {l : List ℚ} {c : ℚ} (h : ∀ x ∈ l, x = c) :
    sqDev l = 0 := by
  cases hl : l with
  | nil => rfl
  | cons a as =>
    rw [← hl]
    have hne : l ≠ [] := by rw [hl]; exact List.cons_ne_nil a as
    have hm := meanL_of_const hne h
    unfold sqDev
    apply List.sum_eq_zero
    intro x hx
    obtain ⟨y, hy, rfl⟩ := List.mem_map.mp hx
    rw [h y hy, hm]
    ring

/-- A nonzero squared deviation forces a strict min-max spread, so the
normalizing denominator is strictly positive. -/
theorem minL_lt_maxL_of_sqDev_ne {l : List ℚ} (h : sqDev l ≠ 0) :
    minL l < maxL l := by
  cases hl : l with
  | nil => exact absurd (by rw [hl]; rfl) h
  | cons a as =>
    rw [← hl]
    have ha : a ∈ l := by rw [hl]; exact List.mem_cons_self a as
    have hle : minL l ≤ maxL l := le_trans (minL_le ha) (le_maxL ha)
    rcases lt_or_eq_of_le hle with hlt | heq
    · exact hlt
    · exfalso
      apply h
      apply sqDev_of_const (c := minL l)
      intro x hx
      exact le_antisymm (by rw [heq]; exact le_maxL hx) (minL_le hx)

/-- Every value produced by min-max normalization lies in `[0, 1]`. -/
theorem normalizeMinMax_unit {l : List ℚ} {x : ℚ}
    (hx : x ∈ normalizeMinMax l) : 0 ≤ x ∧ x ≤ 1 := by
  unfold normalizeMinMax at hx
  split_ifs at hx with hz
  · rw [List.eq_of_mem_replicate hx]
    norm_num
  · obtain ⟨y, hy, rfl⟩ := List.mem_map.mp hx
    have hspread := minL_lt_maxL_of_sqDev_ne hz
    have hpos : 0 < maxL l - minL l := by linarith
    constructor
    · apply div_nonneg _ (le_of_lt hpos)
      have := minL_le hy
      linarith
    · rw [div_le_one hpos]
      have := le_maxL hy
      linarith

/-- Elements of an elementwise array sum decompose into summands. -/
theorem mem_vecAdd {a b : List ℚ} {x : ℚ} (h : x ∈ vecAdd a b) :
    ∃ u ∈ a, ∃ v ∈ b, x = u + v := by
  unfold vecAdd at h
  induction a generalizing b with
  | nil => simp at h
  | cons p ps ih =>
    cases b with
    | nil => simp at h
    | cons q qs =>
      simp only [List.zipWith_cons_cons, List.mem_cons] at h
      rcases h with rfl | h
      · exact ⟨p, List.mem_cons_self p ps, q, List.mem_cons_self q qs, rfl⟩
      · obtain ⟨u, hu, v, hv, rfl⟩ := ih h
        exact ⟨u, List.mem_cons_of_mem p hu, v, List.mem_cons_of_mem q hv, rfl⟩

/-- Elements of a scaled array decompose into scaled originals. -/
theorem mem_vecScale {c : ℚ} {a : List ℚ} {x : ℚ} (h : x ∈ vecScale c a) :
    ∃ u ∈ a, x = c * u := by
  unfold vecScale at h
  obtain ⟨u, hu, rfl⟩ := List.mem_map.mp h
  exact ⟨u, hu, rfl⟩

/-- A convex three-way combination of `[0, 1]`-valued arrays stays in
`[0, 1]` elementwise. -/
theorem weighted3_unit {w1 w2 w3 : ℚ} {l1 l2 l3 : List ℚ}
    (hw1 : 0 ≤ w1) (hw2 : 0 ≤ w2) (hw3 : 0 ≤ w3) (hsum : w1 + w2 + w3 = 1)
    (h1 : ∀ x ∈ l1, 0 ≤ x ∧ x ≤ 1) (h2 : ∀ x ∈ l2, 0 ≤ x ∧ x ≤ 1)
    (h3 : ∀ x ∈ l3, 0 ≤ x ∧ x ≤ 1) :
    ∀ x ∈ vecAdd (vecScale w1 l1) (vecAdd (vecScale w2 l2) (vecScale w3 l3)),
      0 ≤ x ∧ x ≤ 1 := by
  intro x hx
  obtain ⟨p, hp, y, hy, rfl⟩ := mem_vecAdd hx
  obtain ⟨u, hu, rfl⟩ := mem_vecScale hp
  obtain ⟨q, hq, r, hr, rfl⟩ := mem_vecAdd hy
  obtain ⟨v, hv, rfl⟩ := mem_vecScale hq
  obtain ⟨t, ht, rfl⟩ := mem_vecScale hr
  obtain ⟨hu0, hu1⟩ := h1 u hu
  obtain ⟨hv0, hv1⟩ := h2 v hv
  obtain ⟨ht0, ht1⟩ := h3 t ht
  constructor
  · have := mul_nonneg hw1 hu0
    have := mul_nonneg hw2 hv0
    have := mul_nonneg hw3 ht0
    linarith
  · have := mul_le_of_le_one_right hw1 hu1
    have := mul_le_of_le_one_right hw2 hv1
    have := mul_le_of_le_one_right hw3 ht1
    linarith

/-- C6: min-max normalization is total and never divides by zero — a
constant (zero-variance) sequence takes the guarded branch and normalizes
to the all-zero sequence — and as a consequence every value of each of the
four category score sequences of `analyze_excitement` lies in `[0, 1]`. -/
theorem normalization_safety (n : ℕ) (c : ℚ) (f : FeatureSet) :
    normalizeMinMax (List.replicate n c) = List.replicate n 0 ∧
    (∀ x ∈ (analyzeExcitement f).laughter, 0 ≤ x ∧ x ≤ 1) ∧
    (∀ x ∈ (analyzeExcitement f).shock, 0 ≤ x ∧ x ≤ 1) ∧
    (∀ x ∈ (analyzeExcitement f).hype, 0 ≤ x ∧ x ≤ 1) ∧
    (∀ x ∈ (analyzeExcitement f).speech, 0 ≤ x ∧ x ≤ 1) := by
  refine ⟨?_, ?_, ?_, ?_, ?_⟩
  · have hz : sqDev (List.replicate n c) = 0 :=
      sqDev_of_const (fun x hx => List.eq_of_mem_replicate hx)
    unfold normalizeMinMax
    rw [if_pos hz, List.length_replicate]
  · exact weighted3_unit (by norm_num) (by norm_num) (by norm_num)
      (by norm_num) (fun x hx => normalizeMinMax_unit hx)
      (fun x hx => normalizeMinMax_unit hx) (fun x hx => normalizeMinMax_unit hx)
  · exact weighted3_unit (by norm_num) (by norm_num) (by norm_num)
      (by norm_num) (fun x hx => normalizeMinMax_unit hx)
      (fun x hx => normalizeMinMax_unit hx) (fun x hx => normalizeMinMax_unit hx)
  · exact weighted3_unit (by norm_num) (by norm_num) (by norm_num)
      (by norm_num) (fun x hx => normalizeMinMax_unit hx)
      (fun x hx => normalizeMinMax_unit hx) (fun x hx => normalizeMinMax_unit hx)
  · exact fun x hx => normalizeMinMax_unit hx

/-- Witness for C6 at a concrete constant sequence and feature set. -/
theorem normalization_safety_witness :
    normalizeMinMax (List.replicate 3 5) = List.replicate 3 0 ∧
    (∀ x ∈ (analyzeExcitement ⟨[1, 2], [1, 2], [1, 2], [1, 2],
      [[1, 2], [3, 4]], [1, 2], [1, 2]⟩).laughter, 0 ≤ x ∧ x ≤ 1) ∧
    (∀ x ∈ (analyzeExcitement ⟨[1, 2], [1, 2], [1, 2], [1, 2],
      [[1, 2], [3, 4]], [1, 2], [1, 2]⟩).shock, 0 ≤ x ∧ x ≤ 1) ∧
    (∀ x ∈ (analyzeExcitement ⟨[1, 2], [1, 2], [1, 2], [1, 2],
      [[1, 2], [3, 4]], [1, 2], [1, 2]⟩).hype, 0 ≤ x ∧ x ≤ 1) ∧
    (∀ x ∈ (analyzeExcitement ⟨[1, 2], [1, 2], [1, 2], [1, 2],
      [[1, 2], [3, 4]], [1, 2], [1, 2]⟩).speech, 0 ≤ x ∧ x ≤ 1) :=
  normalization_safety 3 5
    ⟨[1, 2], [1, 2], [1, 2], [1, 2], [[1, 2], [3, 4]], [1, 2], [1, 2]⟩

/-! ## C7: rolling baseline -/

/-- C7: the rolling baseline always has the length of its input, and a
frame window at least the input length collapses every entry to the global
mean of the input; every branch of the computation — including the `w = 0`
error path the exception handler absorbs — yields such a flat or
length-preserving baseline, so the function is total. -/
theorem rollingBaseline_spec (values : List ℚ) (w : ℕ) :
    (rollingBaseline values w).length = values.length ∧
    (values.length ≤ w → ∀ x ∈ rollingBaseline values w, x = meanL values) := by
  constructor
  · unfold rollingBaseline
    by_cases h1 : values.length ≤ w
    · simp [h1]
    · by_cases h2 : w = 0 <;> simp [h1, h2]
  · intro hw x hx
    unfold rollingBaseline at hx
    rw [if_pos hw] at hx
    exact List.eq_of_mem_replicate hx

/-- Witness for C7 on a three-element signal with an oversized window. -/
theorem rollingBaseline_spec_witness :
    (rollingBaseline [1, 2, 3] 5).length = 3 ∧
    (∀ x ∈ rollingBaseline [1, 2, 3] 5, x = meanL [1, 2, 3]) :=
  ⟨(rollingBaseline_spec [1, 2, 3] 5).1,
    (rollingBaseline_spec [1, 2, 3] 5).2 (by norm_num)⟩

/-! ## C8: segment selection -/

/-- C8: the selector returns at most `k` segments and preserves rank
order; when the preferred pool (`social > 0.3` and `duration ≥ 20`) has at
least `k` members every returned segment meets that bar; when the
preferred pool is empty the selector falls back to the first ten ranked
segments; and the empty input yields the empty selection. -/
theorem selectBestSegments_spec (segments : List RankedSegment) (k : ℕ) :
    (selectBestSegments segments (some k)).length ≤ k ∧
    (selectBestSegments segments (some k)).Sublist segments ∧
    (k ≤ (segments.filter qualityBar).length →
      ∀ s ∈ selectBestSegments segments (some k), qualityBar s = true) ∧
    (segments.filter qualityBar = [] →
      selectBestSegments segments (some k) =
        (segments.take (min segments.length 10)).take k) ∧
    selectBestSegments ([] : List RankedSegment) (some k) = [] := by
  cases segments with
  | nil =>
    refine ⟨by simp [selectBestSegments], by simp [selectBestSegments],
      ?_, ?_, rfl⟩
    · intro _ s hs
      simp [selectBestSegments] at hs
    · intro _
      simp [selectBestSegments]
  | cons a as =>
    have hsel : selectBestSegments (a :: as) (some k) =
        (if (a :: as).filter qualityBar = []
          then (a :: as).take (min (a :: as).length 10)
          else (a :: as).filter qualityBar).take k := rfl
    refine ⟨?_, ?_, ?_, ?_, rfl⟩
    · rw [hsel]
      exact List.length_take_le k _
    · rw [hsel]
      split_ifs with hq
      · exact ((List.take_sublist _ _).trans (List.take_sublist _ _))
      · exact ((List.take_sublist _ _).trans (List.filter_sublist _))
    · intro hk s hs
      rw [hsel] at hs
      split_ifs at hs with hq
      · rw [hq] at hk
        simp only [List.length_nil, Nat.le_zero] at hk
        rw [hk] at hs
        simp at hs
      · have hmem : s ∈ (a :: as).filter qualityBar :=
          (List.take_sublist _ _).mem hs
        exact (List.mem_filter.mp hmem).2
    · intro hq
      rw [hsel, if_pos hq]

/-- Witness for C8 on a two-segment list whose preferred pool is both
at least as large as the request and simultaneously checked against the
empty-input clause. -/
theorem selectBestSegments_spec_witness :
    (selectBestSegments
      [⟨0, 30, 30, "hype", 2, 1⟩, ⟨40, 70, 30, "hype", 1, 1⟩] (some 1)).length ≤ 1 ∧
    (∀ s ∈ selectBestSegments
      [⟨0, 30, 30, "hype", 2, 1⟩, ⟨40, 70, 30, "hype", 1, 1⟩] (some 1),
      qualityBar s = true) ∧
    selectBestSegments ([] : List RankedSegment) (some 1) = [] := by
  have hbar : qualityBar ⟨0, 30, 30, "hype", 2, 1⟩ = true ∧
      qualityBar ⟨40, 70, 30, "hype", 1, 1⟩ = true := by
    constructor <;>
      · simp only [qualityBar, Bool.and_eq_true, decide_eq_true_eq]
        norm_num
  have hlen : 1 ≤ (([⟨0, 30, 30, "hype", 2, 1⟩, ⟨40, 70, 30, "hype", 1, 1⟩] :
      List RankedSegment).filter qualityBar).length := by
    rw [List.filter_cons, List.filter_cons, if_pos hbar.1, if_pos hbar.2]
    simp
  exact ⟨(selectBestSegments_spec _ 1).1,
    (selectBestSegments_spec _ 1).2.2.1 hlen,
    (selectBestSegments_spec [] 1).2.2.2.2⟩

/-! ## C5: merge-pass idempotence -/

/-- The merge pass's sort produces a start-ordered chain. -/
theorem sortByStart_sorted (l : List Segment) :
    List.Chain' startLE (sortByStart l) :=
  (List.sorted_insertionSort startLE l).chain'

/-- A start-ordered list is a fixpoint of the merge pass's sort. -/
theorem sortByStart_eq_of_sorted {l : List Segment}
    (h : List.Chain' startLE l) : sortByStart l = l :=
  List.Sorted.insertionSort_eq (List.chain'_iff_pairwise.mp h)

/-- Sorting does not change the segments present. -/
theorem mem_sortByStart {x : Segment} {l : List Segment} :
    x ∈ sortByStart l ↔ x ∈ l :=
  (List.perm_insertionSort startLE l).mem_iff

/-- The merge scan's first output segment starts where `last` starts. -/
theorem mergeCore_head_start (t : List Segment) : ∀ last : Segment,
    ∃ e ty rest, mergeCore last t = ⟨last.startTime, e, ty⟩ :: rest := by
  induction t with
  | nil => exact fun last => ⟨last.endTime, last.excType, [], rfl⟩
  | cons c rest ih =>
    intro last
    by_cases hgap : c.startTime - last.endTime ≤ mergeThreshold
    · simp only [mergeCore]
      rw [if_pos hgap]
      exact ih _
    · simp only [mergeCore]
      rw [if_neg hgap]
      exact ⟨last.endTime, last.excType, mergeCore c rest, rfl⟩

/-- Consecutive outputs of the merge scan are separated by more than the
merge threshold: a close successor is folded in instead of emitted. -/
theorem mergeCore_gap_chain (t : List Segment) : ∀ last : Segment,
    List.Chain' bigGap (mergeCore last t) := by
  induction t with
  | nil => intro last; simp [mergeCore]
  | cons c rest ih =>
    intro last
    by_cases hgap : c.startTime - last.endTime ≤ mergeThreshold
    · simp only [mergeCore]
      rw [if_pos hgap]
      exact ih _
    · simp only [mergeCore]
      rw [if_neg hgap]
      obtain ⟨e, ty, rest', heq⟩ := mergeCore_head_start rest c
      rw [heq]
      refine List.chain'_cons.mpr ⟨not_le.mp hgap, ?_⟩
      rw [← heq]
      exact ih c

/-- The merge scan of a start-ordered input is start-ordered. -/
theorem mergeCore_sorted (t : List Segment) : ∀ last : Segment,
    List.Chain' startLE (last :: t) →
    List.Chain' startLE (mergeCore last t) := by
  induction t with
  | nil => intro last _; simp [mergeCore]
  | cons c rest ih =>
    intro last h
    obtain ⟨hlc, hcr⟩ := List.chain'_cons.mp h
    by_cases hgap : c.startTime - last.endTime ≤ mergeThreshold
    · simp only [mergeCore]
      rw [if_pos hgap]
      apply ih
      cases rest with
      | nil => simp
      | cons d ds =>
        obtain ⟨hcd, hds⟩ := List.chain'_cons.mp hcr
        exact List.chain'_cons.mpr ⟨le_trans hlc hcd, hds⟩
    · simp only [mergeCore]
      rw [if_neg hgap]
      obtain ⟨e, ty, rest', heq⟩ := mergeCore_head_start rest c
      rw [heq]
      refine List.chain'_cons.mpr ⟨hlc, ?_⟩
      rw [← heq]
      exact ih c hcr

/-- On a chain of threshold-separated segments the merge scan emits its
input unchanged. -/
theorem mergeCore_of_gap_chain (t : List Segment) : ∀ last : Segment,
    List.Chain' bigGap (last :: t) → mergeCore last t = last :: t := by
  induction t with
  | nil => intro last _; rfl
  | cons c rest ih =>
    intro last h
    obtain ⟨hlc, hcr⟩ := List.chain'_cons.mp h
    simp only [mergeCore]
    rw [if_neg (not_le.mpr hlc), ih c hcr]

/-- C5: a start-sorted segment list in which consecutive segments are
separated by more than `merge_threshold` is returned unchanged by the
merge pass, and the merge pass is idempotent: re-running it on its own
output reproduces that output. -/
theorem mergeSegments_idempotent (l : List Segment) :
    (List.Chain' startLE l → List.Chain' bigGap l → mergeSegments l = l) ∧
    mergeSegments (mergeSegments l) = mergeSegments l := by
  have hfix : ∀ m : List Segment, List.Chain' startLE m →
      List.Chain' bigGap m → mergeSegments m = m := by
    intro m hs hg
    unfold mergeSegments
    rw [sortByStart_eq_of_sorted hs]
    cases m with
    | nil => rfl
    | cons h t => exact mergeCore_of_gap_chain t h hg
  have hs : List.Chain' startLE (mergeSegments l) := by
    unfold mergeSegments
    rcases hsl : sortByStart l with _ | ⟨h, t⟩
    · simp
    · apply mergeCore_sorted
      rw [← hsl]
      exact sortByStart_sorted l
  have hg : List.Chain' bigGap (mergeSegments l) := by
    unfold mergeSegments
    rcases hsl : sortByStart l with _ | ⟨h, t⟩
    · simp
    · exact mergeCore_gap_chain t h
  exact ⟨hfix l, hfix (mergeSegments l) hs hg⟩

/-- Witness for C5 on a concrete sorted, widely-separated pair. -/
theorem mergeSegments_idempotent_witness :
    mergeSegments [⟨0, 18, "laughter"⟩, ⟨100, 120, "hype"⟩] =
      [⟨0, 18, "laughter"⟩, ⟨100, 120, "hype"⟩] :=
  (mergeSegments_idempotent _).1
    (by
      refine List.chain'_cons.mpr ⟨?_, List.chain'_singleton _⟩
      show (0 : ℚ) ≤ 100
      norm_num)
    (by
      refine List.chain'_cons.mpr ⟨?_, List.chain'_singleton _⟩
      show mergeThreshold < 100 - 18
      norm_num [mergeThreshold])

/-! ## C2: segment bounds after adjustment and merge -/

/-- Counterexample to C2: three valid raw candidates on a 1000 s signal
flow through length adjustment and the merge pass into a segment of
duration 17.5 s (the 20 s extension window is clamped at the signal's left
edge) and a segment of duration 380 s (two 180 s segments 20 s apart get
merged), so neither the lower nor the upper clip-length bound holds for
the returned segments. -/
theorem adjustThenMerge_counterexample :
    (∀ r ∈ [RawSegment.mk 2 13 (15/2) "hype", RawSegment.mk 100 280 190 "hype",
        RawSegment.mk 300 480 390 "hype"], validRaw r 1000) ∧
    adjustThenMerge [RawSegment.mk 2 13 (15/2) "hype",
        RawSegment.mk 100 280 190 "hype",
        RawSegment.mk 300 480 390 "hype"] 1000 =
      [Segment.mk 0 (35/2) "hype", Segment.mk 100 480 "hype"] ∧
    ¬ (∀ s ∈ adjustThenMerge [RawSegment.mk 2 13 (15/2) "hype",
        RawSegment.mk 100 280 190 "hype",
        RawSegment.mk 300 480 390 "hype"] 1000,
        minClipLength ≤ s.endTime - s.startTime) ∧
    ¬ (∀ s ∈ adjustThenMerge [RawSegment.mk 2 13 (15/2) "hype",
        RawSegment.mk 100 280 190 "hype",
        RawSegment.mk 300 480 390 "hype"] 1000,
        s.endTime - s.startTime ≤ maxClipLength) := by
  have h1 : adjustClipLength 2 13 (15/2) 1000 = (0, 35/2) := by
    simp only [adjustClipLength, minClipLength, maxClipLength]
    rw [if_pos (by norm_num), max_eq_left (by norm_num),
      min_eq_right (by norm_num)]
    norm_num
  have h2 : adjustClipLength 100 280 190 1000 = (100, 280) := by
    simp only [adjustClipLength, minClipLength, maxClipLength]
    rw [if_neg (by norm_num), if_neg (by norm_num)]
  have h3 : adjustClipLength 300 480 390 1000 = (300, 480) := by
    simp only [adjustClipLength, minClipLength, maxClipLength]
    rw [if_neg (by norm_num), if_neg (by norm_num)]
  have hmap : adjustThenMerge [RawSegment.mk 2 13 (15/2) "hype",
      RawSegment.mk 100 280 190 "hype",
      RawSegment.mk 300 480 390 "hype"] 1000 =
      mergeSegments [Segment.mk 0 (35/2) "hype", Segment.mk 100 280 "hype",
        Segment.mk 300 480 "hype"] := by
    unfold adjustThenMerge
    simp only [List.map_cons, List.map_nil, h1, h2, h3]
  have hsort : sortByStart [Segment.mk 0 (35/2) "hype",
      Segment.mk 100 280 "hype", Segment.mk 300 480 "hype"] =
      [Segment.mk 0 (35/2) "hype", Segment.mk 100 280 "hype",
        Segment.mk 300 480 "hype"] := by
    apply sortByStart_eq_of_sorted
    refine List.chain'_cons.mpr ⟨?_, List.chain'_cons.mpr
      ⟨?_, List.chain'_singleton _⟩⟩
    · show (0 : ℚ) ≤ 100
      norm_num
    · show (100 : ℚ) ≤ 300
      norm_num
  have hmerge : adjustThenMerge [RawSegment.mk 2 13 (15/2) "hype",
      RawSegment.mk 100 280 190 "hype",
      RawSegment.mk 300 480 390 "hype"] 1000 =
      [Segment.mk 0 (35/2) "hype", Segment.mk 100 480 "hype"] := by
    rw [hmap]
    unfold mergeSegments
    rw [hsort]
    simp only [mergeCore]
    rw [if_neg (by norm_num [mergeThreshold] :
        ¬ ((100 : ℚ) - 35/2 ≤ mergeThreshold))]
    rw [if_pos (by norm_num [mergeThreshold] :
        (300 : ℚ) - 280 ≤ mergeThreshold)]
    simp
  refine ⟨?_, hmerge, ?_, ?_⟩
  · intro r hr
    fin_cases hr <;> norm_num [validRaw]
  · intro habs
    rw [hmerge] at habs
    have h := habs (Segment.mk 0 (35/2) "hype") (List.mem_cons_self _ _)
    norm_num [minClipLength] at h
  · intro habs
    rw [hmerge] at habs
    have h := habs (Segment.mk 100 480 "hype")
      (List.mem_cons_of_mem _ (List.mem_cons_self _ _))
    norm_num [maxClipLength] at h

/-- Length adjustment keeps a valid candidate inside the signal and
strictly ordered. -/
theorem adjustClipLength_valid {s e p maxT : ℚ} (h0 : 0 ≤ s) (hse : s < e)
    (heT : e ≤ maxT) (hp0 : 0 ≤ p) (hpT : p ≤ maxT) :
    0 ≤ (adjustClipLength s e p maxT).1 ∧
    (adjustClipLength s e p maxT).1 < (adjustClipLength s e p maxT).2 ∧
    (adjustClipLength s e p maxT).2 ≤ maxT := by
  have hT : 0 < maxT := lt_of_lt_of_le (lt_of_le_of_lt h0 hse) heT
  simp only [adjustClipLength, minClipLength, maxClipLength]
  split_ifs with hshort hlong
  · refine ⟨le_max_left 0 _, ?_, min_le_left _ _⟩
    exact max_lt (lt_min hT (by linarith)) (lt_min (by linarith) (by linarith))
  · refine ⟨le_max_left 0 _, ?_, min_le_left _ _⟩
    exact max_lt (lt_min hT (by linarith)) (lt_min (by linarith) (by linarith))
  · exact ⟨h0, hse, heT⟩

/-- The merge scan preserves position bounds on a start-ordered input:
merged spans take their start from the earlier and their end from the
later segment. -/
theorem mergeCore_bounds {maxT : ℚ} (t : List Segment) : ∀ last : Segment,
    List.Chain' startLE (last :: t) →
    (0 ≤ last.startTime ∧ last.startTime < last.endTime ∧ last.endTime ≤ maxT) →
    (∀ x ∈ t, 0 ≤ x.startTime ∧ x.startTime < x.endTime ∧ x.endTime ≤ maxT) →
    ∀ s ∈ mergeCore last t,
      0 ≤ s.startTime ∧ s.startTime < s.endTime ∧ s.endTime ≤ maxT := by
  induction t with
  | nil =>
    intro last _ hB _ s hs
    simp only [mergeCore, List.mem_singleton] at hs
    rw [hs]
    exact hB
  | cons c rest ih =>
    intro last hchain hB hall s hs
    obtain ⟨hlc, hcr⟩ := List.chain'_cons.mp hchain
    have hc := hall c (List.mem_cons_self c rest)
    by_cases hgap : c.startTime - last.endTime ≤ mergeThreshold
    · rw [show mergeCore last (c :: rest) = mergeCore
          ⟨last.startTime, c.endTime,
            if last.excType = c.excType then last.excType
            else last.excType ++ "+" ++ c.excType⟩ rest by
        simp only [mergeCore]; rw [if_pos hgap]] at hs
      refine ih _ ?_ ?_ (fun x hx => hall x (List.mem_cons_of_mem c hx)) s hs
      · cases rest with
        | nil => simp
        | cons d ds =>
          obtain ⟨hcd, hds⟩ := List.chain'_cons.mp hcr
          exact List.chain'_cons.mpr ⟨le_trans hlc hcd, hds⟩
      · exact ⟨hB.1, lt_of_le_of_lt hlc hc.2.1, hc.2.2⟩
    · rw [show mergeCore last (c :: rest) = last :: mergeCore c rest by
        simp only [mergeCore]; rw [if_neg hgap]] at hs
      rcases List.mem_cons.mp hs with rfl | hs'
      · exact hB
      · exact ih c hcr hc (fun x hx => hall x (List.mem_cons_of_mem c hx)) s hs'

/-- The merge pass preserves position bounds. -/
theorem mergeSegments_bounds {maxT : ℚ} (l : List Segment)
    (h : ∀ x ∈ l, 0 ≤ x.startTime ∧ x.startTime < x.endTime ∧ x.endTime ≤ maxT) :
    ∀ s ∈ mergeSegments l,
      0 ≤ s.startTime ∧ s.startTime < s.endTime ∧ s.endTime ≤ maxT := by
  intro s hs
  unfold mergeSegments at hs
  rcases hsl : sortByStart l with _ | ⟨a, t⟩
  · rw [hsl] at hs
    cases hs
  · rw [hsl] at hs
    have hsorted : List.Chain' startLE (a :: t) := by
      rw [← hsl]
      exact sortByStart_sorted l
    have hmem : ∀ x ∈ a :: t,
        0 ≤ x.startTime ∧ x.startTime < x.endTime ∧ x.endTime ≤ maxT := by
      intro x hx
      apply h
      rw [← mem_sortByStart (l := l), hsl]
      exact hx
    exact mergeCore_bounds t a hsorted (hmem a (List.mem_cons_self a t))
      (fun x hx => hmem x (List.mem_cons_of_mem a hx)) s hs

/-- C2 amended: every segment surviving length adjustment and the merge
pass satisfies `0 ≤ start < end ≤ signal duration`, but neither
clip-length bound: the 20 s minimum fails when the extension window is
clamped at a signal edge, and the 180 s maximum fails when the merge pass
chains segments. -/
theorem adjustThenMerge_bounds (raws : List RawSegment) (maxT : ℚ)
    (h : ∀ r ∈ raws, validRaw r maxT) :
    ∀ s ∈ adjustThenMerge raws maxT,
      0 ≤ s.startTime ∧ s.startTime < s.endTime ∧ s.endTime ≤ maxT := by
  unfold adjustThenMerge
  apply mergeSegments_bounds
  intro x hx
  obtain ⟨r, hr, rfl⟩ := List.mem_map.mp hx
  obtain ⟨h0, hse, heT, hp0, hpT⟩ := h r hr
  exact adjustClipLength_valid h0 hse heT hp0 hpT

/-- Witness for the amended C2 on a single valid candidate, instantiated
at the one returned segment. -/
theorem adjustThenMerge_bounds_witness :
    0 ≤ (Segment.mk 0 30 "hype").startTime ∧
    (Segment.mk 0 30 "hype").startTime < (Segment.mk 0 30 "hype").endTime ∧
    (Segment.mk 0 30 "hype").endTime ≤ 100 :=
  adjustThenMerge_bounds [RawSegment.mk 0 30 10 "hype"] 100
    (by
      intro r hr
      fin_cases hr
      norm_num [validRaw])
    (Segment.mk 0 30 "hype")
    (by
      unfold adjustThenMerge
      have h1 : adjustClipLength 0 30 10 100 = (0, 30) := by
        simp only [adjustClipLength, minClipLength, maxClipLength]
        rw [if_neg (by norm_num), if_neg (by norm_num)]
      simp only [List.map_cons, List.map_nil, h1]
      unfold mergeSegments sortByStart
      simp [mergeCore, List.insertionSort])

/-! ## C10: performance cache -/

/-- Removing a known failing element strictly shrinks a filtered list. -/
theorem length_filter_lt {α : Type} (p : α → Bool) (l : List α) (x : α)
    (hx : x ∈ l) (hpx : p x = false) : (l.filter p).length < l.length := by
  induction l with
  | nil => cases hx
  | cons a as ih =>
    rcases List.mem_cons.mp hx with rfl | hx'
    · simp only [List.filter_cons, hpx, Bool.false_eq_true, if_false,
        List.length_cons]
      exact Nat.lt_succ_of_le (List.length_filter_le p as)
    · by_cases hpa : p a = true
      · simp only [List.filter_cons, hpa, if_true, List.length_cons]
        exact Nat.succ_lt_succ (ih hx')
      · simp only [List.filter_cons, hpa, if_false, List.length_cons]
        exact Nat.lt_succ_of_lt (ih hx')

/-- The running minimum of the access-time fold is one of the entries. -/
theorem foldlMin_mem (rest : List CacheEntry) : ∀ e : CacheEntry,
    rest.foldl (fun b c => if c.time < b.time then c else b) e ∈ e :: rest := by
  induction rest with
  | nil => exact fun e => List.mem_singleton_self e
  | cons c cs ih =>
    intro e
    simp only [List.foldl_cons]
    by_cases h : c.time < e.time
    · rw [if_pos h]
      exact List.mem_cons_of_mem e (ih c)
    · rw [if_neg h]
      rcases List.mem_cons.mp (ih e) with he | hcs
      · rw [he]; exact List.mem_cons_self _ _
      · exact List.mem_cons_of_mem e (List.mem_cons_of_mem c hcs)

/-- The running minimum of the access-time fold has the least access time. -/
theorem foldlMin_le (rest : List CacheEntry) : ∀ e x : CacheEntry,
    x ∈ e :: rest →
    (rest.foldl (fun b c => if c.time < b.time then c else b) e).time ≤ x.time := by
  induction rest with
  | nil =>
    intro e x hx
    rw [List.mem_singleton.mp hx]
    exact le_refl _
  | cons c cs ih =>
    intro e x hx
    simp only [List.foldl_cons]
    by_cases h : c.time < e.time
    · rw [if_pos h]
      rcases List.mem_cons.mp hx with rfl | hx'
      · exact le_trans (ih c c (List.mem_cons_self c cs)) (le_of_lt h)
      · exact ih c x hx'
    · rw [if_neg h]
      rcases List.mem_cons.mp hx with rfl | hx'
      · exact ih x x (List.mem_cons_self x cs)
      · rcases List.mem_cons.mp hx' with rfl | hx''
        · exact le_trans (ih e e (List.mem_cons_self e cs)) (not_lt.mp h)
        · exact ih e x (List.mem_cons_of_mem e hx'')

/-- Well-formedness the cache maintains from construction: distinct
in-memory keys, every disk file backed by a live in-memory entry, and the
bounded entry count. -/
def CacheInv (maxSize : ℕ) (st : CacheState) : Prop :=
  (memKeys st).Nodup ∧ (∀ k ∈ diskKeys st, k ∈ memKeys st) ∧
    st.mem.length ≤ maxSize

/-- The expiry sweep preserves cache well-formedness. -/
theorem cleanupExpired_inv {maxSize : ℕ} (ttl now : ℕ) {st : CacheState}
    (h : CacheInv maxSize st) : CacheInv maxSize (cleanupExpired ttl now st) := by
  obtain ⟨hnd, hdm, hlen⟩ := h
  unfold CacheInv memKeys diskKeys cleanupExpired at *
  refine ⟨?_, ?_, ?_⟩
  · exact ((List.filter_sublist st.mem).map (·.key)).nodup hnd
  · intro k hk
    simp only [List.mem_map, List.mem_filter] at hk
    obtain ⟨d, ⟨hdmem, hdpass⟩, rfl⟩ := hk
    have hnotin : d.key ∉
        (st.mem.filter (fun e => isExpired ttl now e.time)).map (·.key) := by
      simpa using hdpass
    obtain ⟨e, he, hek⟩ := List.mem_map.mp
      (hdm d.key (List.mem_map.mpr ⟨d, hdmem, rfl⟩))
    have hexp : isExpired ttl now e.time = false := by
      by_contra habs
      have ht : isExpired ttl now e.time = true := by
        revert habs; cases isExpired ttl now e.time <;> simp
      exact hnotin (List.mem_map.mpr ⟨e, List.mem_filter.mpr ⟨he, ht⟩, hek⟩)
    refine List.mem_map.mpr ⟨e, List.mem_filter.mpr ⟨he, ?_⟩, hek⟩
    rw [hexp]
    rfl
  · exact le_trans (List.length_filter_le _ _) hlen

/-- Key-preserving entry rewrites leave the key sequence unchanged. -/
theorem memKeys_map_touch (mem : List CacheEntry) (g : CacheEntry → CacheEntry)
    (hg : ∀ e ∈ mem, (g e).key = e.key) :
    (mem.map g).map (·.key) = mem.map (·.key) := by
  rw [List.map_map]
  exact List.map_congr_left (fun e he => hg e he)

/-- A successful eviction keeps the cache well-formed and leaves room for
one more entry. -/
theorem evictLru_sound {maxSize : ℕ} {st st1 : CacheState}
    (h : CacheInv maxSize st) (heq : evictLru maxSize st = some st1) :
    (memKeys st1).Nodup ∧ (∀ k ∈ diskKeys st1, k ∈ memKeys st1) ∧
      st1.mem.length + 1 ≤ maxSize := by
  obtain ⟨hnd, hdm, hlen⟩ := h
  unfold evictLru at heq
  by_cases hfull : maxSize ≤ st.mem.length
  · rw [if_pos hfull] at heq
    cases hm : st.mem with
    | nil =>
      rw [hm] at heq
      simp [lruKey?] at heq
    | cons e rest =>
      rw [hm] at heq
      simp only [lruKey?] at heq
      obtain rfl := (Option.some.inj heq).symm
      set m := rest.foldl (fun b c => if c.time < b.time then c else b) e
        with hmdef
      have hmmem : m ∈ st.mem := by rw [hm]; exact foldlMin_mem rest e
      refine ⟨?_, ?_, ?_⟩
      · have : (((e :: rest).filter (fun x => x.key != m.key)).map (·.key)).Nodup := by
          refine ((List.filter_sublist (e :: rest)).map (·.key)).nodup ?_
          rw [← hm]
          exact hnd
        exact this
      · intro k hk
        simp only [diskKeys, List.mem_map, List.mem_filter] at hk
        obtain ⟨d, ⟨hdmem, hdne⟩, rfl⟩ := hk
        have hdk : d.key ∈ memKeys st :=
          hdm d.key (List.mem_map.mpr ⟨d, hdmem, rfl⟩)
        obtain ⟨x, hx, hxk⟩ := List.mem_map.mp hdk
        simp only [memKeys, List.mem_map, List.mem_filter]
        refine ⟨x, ⟨by rw [← hm]; exact hx, ?_⟩, hxk⟩
        rw [hxk]
        exact hdne
      · have hlt : ((e :: rest).filter (fun x => x.key != m.key)).length <
            (e :: rest).length := by
          apply length_filter_lt _ _ m
          · rw [← hm]; exact hmmem
          · simp
        have hsz : st.mem.length = maxSize :=
          le_antisymm hlen hfull
        rw [hm] at hsz
        show ((e :: rest).filter (fun x => x.key != m.key)).length + 1 ≤ maxSize
        omega
  · rw [if_neg hfull] at heq
    obtain rfl := (Option.some.inj heq).symm
    exact ⟨hnd, hdm, by omega⟩

/-- Keys and size of a dict assignment: an existing key is overwritten in
place, a fresh key appended. -/
theorem dictSet_spec (l : List CacheEntry) (f : CacheEntry) :
    ((dictSet l f).map (·.key) = l.map (·.key) ∧ f.key ∈ l.map (·.key) ∧
      (dictSet l f).length = l.length) ∨
    ((dictSet l f).map (·.key) = l.map (·.key) ++ [f.key] ∧
      f.key ∉ l.map (·.key) ∧ (dictSet l f).length = l.length + 1) := by
  unfold dictSet
  by_cases hany : l.any (fun e => e.key == f.key) = true
  · rw [if_pos hany]
    left
    refine ⟨?_, ?_, List.length_map l _⟩
    · apply memKeys_map_touch
      intro e _
      by_cases hek : e.key == f.key
      · rw [if_pos hek]
        exact (beq_iff_eq.mp hek).symm
      · rw [if_neg hek]
    · obtain ⟨e, he, hek⟩ := List.any_eq_true.mp hany
      exact List.mem_map.mpr ⟨e, he, beq_iff_eq.mp hek⟩
  · rw [if_neg hany]
    right
    refine ⟨by rw [List.map_append]; rfl, ?_, by
      rw [List.length_append]; rfl⟩
    intro habs
    obtain ⟨e, he, hek⟩ := List.mem_map.mp habs
    exact hany (List.any_eq_true.mpr ⟨e, he, beq_iff_eq.mpr hek⟩)

/-- A `set` preserves cache well-formedness (a raising `set` leaves the
state untouched). -/
theorem cacheSet_inv {maxSize : ℕ} {st : CacheState} (k : String)
    (v now : ℕ) (persist : Bool) (h : CacheInv maxSize st) :
    CacheInv maxSize ((cacheSet maxSize k v now persist st).getD st) := by
  unfold cacheSet
  cases hev : evictLru maxSize st with
  | none => simpa using h
  | some st1 =>
    obtain ⟨hnd1, hdm1, hlen1⟩ := evictLru_sound h hev
    simp only [Option.getD_some]
    unfold CacheInv memKeys diskKeys
    dsimp only
    have hmemNew : (dictSet st1.mem ⟨k, v, now⟩).map (·.key) =
          st1.mem.map (·.key) ∨
        (dictSet st1.mem ⟨k, v, now⟩).map (·.key) =
          st1.mem.map (·.key) ++ [k] := by
      rcases dictSet_spec st1.mem ⟨k, v, now⟩ with ⟨he, _, _⟩ | ⟨he, _, _⟩
      · exact Or.inl he
      · exact Or.inr he
    have hmemK : ∀ k' , (k' ∈ st1.mem.map (·.key) ∨ k' = k) →
        k' ∈ (dictSet st1.mem ⟨k, v, now⟩).map (·.key) := by
      intro k' hk'
      rcases dictSet_spec st1.mem ⟨k, v, now⟩ with ⟨he, hin, _⟩ | ⟨he, _, _⟩
      · rw [he]
        rcases hk' with hold | rfl
        · exact hold
        · exact hin
      · rw [he]
        rcases hk' with hold | rfl
        · exact List.mem_append.mpr (Or.inl hold)
        · exact List.mem_append.mpr (Or.inr (List.mem_singleton_self k'))
    refine ⟨?_, ?_, ?_⟩
    · rcases dictSet_spec st1.mem ⟨k, v, now⟩ with ⟨he, _, _⟩ | ⟨he, hnot, _⟩
      · rw [he]; exact hnd1
      · rw [he, ← List.concat_eq_append]
        exact List.Nodup.concat hnot hnd1
    · intro k' hk'
      apply hmemK
      by_cases hp : persist = true
      · rw [if_pos hp] at hk'
        rcases dictSet_spec st1.disk ⟨k, v, now⟩ with ⟨he, _, _⟩ | ⟨he, _, _⟩
        · rw [he] at hk'
          exact Or.inl (hdm1 k' hk')
        · rw [he] at hk'
          rcases List.mem_append.mp hk' with hold | hnew
          · exact Or.inl (hdm1 k' hold)
          · exact Or.inr (List.mem_singleton.mp hnew)
      · rw [if_neg hp] at hk'
        exact Or.inl (hdm1 k' hk')
    · rcases dictSet_spec st1.mem ⟨k, v, now⟩ with ⟨_, _, hlen⟩ | ⟨_, _, hlen⟩ <;>
        omega

/-- A `get` preserves cache well-formedness; the disk-load path is
unreachable because every disk file is backed by a live memory entry. -/
theorem cacheGet_inv {maxSize ttl : ℕ} {st : CacheState} (k : String)
    (now : ℕ) (h : CacheInv maxSize st) :
    CacheInv maxSize (cacheGet ttl k now st).2 := by
  obtain ⟨hnd1, hdm1, hlen1⟩ := cleanupExpired_inv ttl now h
  cases hfm : (cleanupExpired ttl now st).mem.find? (fun e => e.key == k) with
  | some e =>
    have hval : (cacheGet ttl k now st).2 =
        { mem := (cleanupExpired ttl now st).mem.map (fun e' =>
            if e'.key == k then { e' with time := now } else e'),
          disk := (cleanupExpired ttl now st).disk } := by
      unfold cacheGet
      dsimp only
      rw [hfm]
    rw [hval]
    have hkeys : ((cleanupExpired ttl now st).mem.map (fun e' =>
        if e'.key == k then { e' with time := now } else e')).map (·.key) =
        (cleanupExpired ttl now st).mem.map (·.key) := by
      apply memKeys_map_touch
      intro e' _
      by_cases hek : e'.key == k
      · rw [if_pos hek]
      · rw [if_neg hek]
    unfold CacheInv memKeys diskKeys
    dsimp only
    refine ⟨?_, ?_, ?_⟩
    · rw [hkeys]
      exact hnd1
    · intro k' hk'
      rw [hkeys]
      exact hdm1 k' hk'
    · rw [List.length_map]
      exact hlen1
  | none =>
    cases hfd : (cleanupExpired ttl now st).disk.find? (fun e => e.key == k) with
    | some d =>
      exfalso
      have hdmem : d ∈ (cleanupExpired ttl now st).disk :=
        List.mem_of_find?_eq_some hfd
      have hdk : (d.key == k) = true := by
        have := List.find?_some hfd
        exact this
      have hmemk := hdm1 d.key (List.mem_map.mpr ⟨d, hdmem, rfl⟩)
      obtain ⟨e, he, hek⟩ := List.mem_map.mp hmemk
      have hnone := List.find?_eq_none.mp hfm e he
      apply hnone
      rw [hek]
      exact hdk
    | none =>
      have hval : (cacheGet ttl k now st).2 = cleanupExpired ttl now st := by
        unfold cacheGet
        dsimp only
        rw [hfm, hfd]
      rw [hval]
      exact ⟨hnd1, hdm1, hlen1⟩

/-- Every cache operation preserves well-formedness. -/
theorem runOp_inv {maxSize ttl : ℕ} {st : CacheState} (op : CacheOp)
    (h : CacheInv maxSize st) : CacheInv maxSize (runOp maxSize ttl st op) := by
  cases op with
  | get k now => exact cacheGet_inv k now h
  | set k v now p => exact cacheSet_inv k v now p h

/-- Every state reachable from the fresh cache is well-formed. -/
theorem runOps_inv (maxSize ttl : ℕ) (ops : List CacheOp) :
    CacheInv maxSize (runOps maxSize ttl ops) := by
  unfold runOps
  suffices h : ∀ st, CacheInv maxSize st →
      CacheInv maxSize (ops.foldl (runOp maxSize ttl) st) from
    h ⟨[], []⟩ ⟨List.nodup_nil, by simp [diskKeys, memKeys], Nat.zero_le _⟩
  induction ops with
  | nil => exact fun st h => h
  | cons op rest ih => exact fun st h => ih _ (runOp_inv op h)

/-- Counterexample to C10's absolute-TTL conjunct: with a 1-hour TTL, a
key set at time 0 and touched by a `get` at time 1 is still served by a
`get` at time 2 — one unit past its absolute insertion-time expiry, which
the third conjunct records — while without the intermediate access the
same `get` at time 2 misses: expiry is measured from last access, not
from insertion. -/
theorem cacheTTL_counterexample :
    (cacheGet 1 "k" 2 (runOps 2 1
      [CacheOp.set "k" 7 0 true, CacheOp.get "k" 1])).1 = some 7 ∧
    (cacheGet 1 "k" 2 (runOps 2 1 [CacheOp.set "k" 7 0 true])).1 = none ∧
    1 < 2 - 0 := by
  refine ⟨by decide, by decide, by decide⟩

/-- C10 amended: the in-memory store holds at most `max_size` entries
after any operation sequence from the fresh cache; a full store evicts an
entry of minimal access time, removing its disk copy too; the expiry sweep
removes an expired entry from memory and its key from disk; and an entry
survives the sweep exactly while the time since its *last access* — not
since its insertion — is within the TTL. -/
theorem performanceCache_spec (maxSize ttl : ℕ) :
    (∀ ops : List CacheOp, (runOps maxSize ttl ops).mem.length ≤ maxSize) ∧
    (∀ st : CacheState, maxSize ≤ st.mem.length → st.mem ≠ [] →
      ∃ e0 ∈ st.mem, (∀ e ∈ st.mem, e0.time ≤ e.time) ∧
        evictLru maxSize st = some
          { mem := st.mem.filter (fun e => e.key != e0.key),
            disk := st.disk.filter (fun e => e.key != e0.key) }) ∧
    (∀ (st : CacheState) (now : ℕ) (e : CacheEntry), e ∈ st.mem →
      isExpired ttl now e.time = true →
      e ∉ (cleanupExpired ttl now st).mem ∧
      e.key ∉ diskKeys (cleanupExpired ttl now st)) ∧
    (∀ (st : CacheState) (now : ℕ) (e : CacheEntry),
      e ∈ (cleanupExpired ttl now st).mem → now - e.time ≤ ttl) := by
  refine ⟨?_, ?_, ?_, ?_⟩
  · exact fun ops => (runOps_inv maxSize ttl ops).2.2
  · intro st hfull hne
    cases hm : st.mem with
    | nil => exact absurd hm hne
    | cons e rest =>
      refine ⟨rest.foldl (fun b c => if c.time < b.time then c else b) e,
        ?_, ?_, ?_⟩
      · exact foldlMin_mem rest e
      · intro x hx
        exact foldlMin_le rest e x hx
      · unfold evictLru
        rw [if_pos hfull, hm]
        simp only [lruKey?]
  · intro st now e he hexp
    constructor
    · intro habs
      unfold cleanupExpired at habs
      simp only [List.mem_filter] at habs
      rw [hexp] at habs
      simp at habs
    · intro habs
      unfold cleanupExpired diskKeys at habs
      simp only [List.mem_map, List.mem_filter] at habs
      obtain ⟨d, ⟨hdmem, hdpass⟩, hdk⟩ := habs
      have hnotin : d.key ∉
          (st.mem.filter (fun x => isExpired ttl now x.time)).map (·.key) := by
        simpa using hdpass
      exact hnotin (List.mem_map.mpr
        ⟨e, List.mem_filter.mpr ⟨he, hexp⟩, hdk.symm⟩)
  · intro st now e he
    unfold cleanupExpired at he
    simp only [List.mem_filter] at he
    have hf : isExpired ttl now e.time = false := by
      rcases he with ⟨_, hpass⟩
      revert hpass
      cases isExpired ttl now e.time <;> simp
    unfold isExpired at hf
    exact Nat.not_lt.mp (by simpa using hf)

/-- Witness for the amended C10: the bound after three inserts into a
two-slot cache, a concrete eviction of the oldest-accessed entry, a
concrete expiry removing memory and disk copies, and the sliding-TTL
residual bound. -/
theorem performanceCache_spec_witness :
    (runOps 2 1 [CacheOp.set "a" 1 0 true, CacheOp.set "b" 2 1 true,
      CacheOp.set "c" 3 2 true]).mem.length ≤ 2 ∧
    (∃ e0 ∈ (⟨[⟨"a", 1, 5⟩, ⟨"b", 2, 3⟩], [⟨"b", 2, 3⟩]⟩ : CacheState).mem,
      (∀ e ∈ (⟨[⟨"a", 1, 5⟩, ⟨"b", 2, 3⟩], [⟨"b", 2, 3⟩]⟩ : CacheState).mem,
        e0.time ≤ e.time) ∧
      evictLru 2 ⟨[⟨"a", 1, 5⟩, ⟨"b", 2, 3⟩], [⟨"b", 2, 3⟩]⟩ = some
        { mem := [⟨"a", 1, 5⟩, ⟨"b", 2, 3⟩].filter (fun e => e.key != e0.key),
          disk := [(⟨"b", 2, 3⟩ : CacheEntry)].filter
            (fun e => e.key != e0.key) }) ∧
    ((⟨"a", 1, 0⟩ : CacheEntry) ∉
      (cleanupExpired 1 5 ⟨[⟨"a", 1, 0⟩], [⟨"a", 1, 0⟩]⟩).mem ∧
      "a" ∉ diskKeys (cleanupExpired 1 5 ⟨[⟨"a", 1, 0⟩], [⟨"a", 1, 0⟩]⟩)) ∧
    (∀ e ∈ (cleanupExpired 1 5 ⟨[⟨"a", 1, 4⟩], []⟩).mem, 5 - e.time ≤ 1) :=
  ⟨(performanceCache_spec 2 1).1 _,
    (performanceCache_spec 2 1).2.1 _ (by decide) (by decide),
    (performanceCache_spec 2 1).2.2.1 _ 5 _ (by decide) (by decide),
    fun e he => (performanceCache_spec 2 1).2.2.2 _ 5 e he⟩

end ClipGen
